import Mathlib

/-!
Verification of the JCL parsing and attribute-resolution core of the
PythonTool repository.  The Python strings are modelled as lists of
characters; every definition below is a direct shallow embedding of the
corresponding Python function in `src/tools/Jcl.py` or
`src/tools/test_e2e_real.py`.
-/

namespace JclTool

/-- A Python string, modelled as a list of characters. -/
abbrev Chars : Type := List Char

/-- Whitespace test used to model Python `str.strip` and the regex class
`\s`, restricted to the ASCII whitespace characters found in JCL files. -/
def isWs (c : Char) : Bool :=
  c == ' ' || c == '\t' || c == '\r' || c == '\n'

/-- Python `str.strip()`: drop whitespace from both ends. -/
def trimL (cs : Chars) : Chars :=
  ((cs.dropWhile isWs).reverse.dropWhile isWs).reverse

/-- Python `str.startswith`. -/
def pfx : Chars → Chars → Bool
  | [], _ => true
  | _ :: _, [] => false
  | p :: ps, c :: cs => p == c && pfx ps cs

/-- Python `str.endswith(",")`. -/
def endsComma (cs : Chars) : Bool :=
  cs.getLast? == some ','

/-- Python `content.split("\n")`. -/
def splitLines : Chars → List Chars
  | [] => [[]]
  | c :: cs =>
    if c == '\n' then [] :: splitLines cs
    else
      match splitLines cs with
      | [] => [[c]]
      | l :: ls => (c :: l) :: ls

def slashSlash : Chars := ['/', '/']

/-- `re.sub(r"^//\s*", "", line)`: strip one leading `//` marker together
with the whitespace that follows it. -/
def stripMarker (cs : Chars) : Chars :=
  if pfx slashSlash cs then (cs.drop 2).dropWhile isWs else cs

def slashSlashStar : Chars := ['/', '/', '*']

/-- The skip test of `_normalize_jcl`: empty lines, comment lines (`//*`)
and non-statement lines are discarded. -/
def skipB (t : Chars) : Bool :=
  t.isEmpty || pfx slashSlashStar t || !(pfx slashSlash t)

/-- The loop of `JCLParser._normalize_jcl`: `lines` are the raw physical
lines, the second argument is the pending continuation buffer. -/
def normCore : List Chars → Chars → List Chars
  | [], _ => []
  | l :: ls, buffer =>
    let t := trimL l
    if skipB t then normCore ls buffer
    else if endsComma t then
      if buffer.isEmpty then normCore ls t
      else normCore ls (buffer ++ stripMarker t)
    else
      if buffer.isEmpty then t :: normCore ls []
      else (buffer ++ stripMarker t) :: normCore ls []

/-- `JCLParser._normalize_jcl` (textually identical in `Jcl.py` and
`test_e2e_real.py`). -/
def normalizeJcl (content : Chars) : List Chars :=
  normCore (splitLines content) []

/-- The regex fragment `(\S+)` at the current position: the maximal run of
non-whitespace characters and the rest of the input. -/
def takeNS (cs : Chars) : Chars × Chars :=
  (cs.takeWhile (fun c => !isWs c), cs.dropWhile (fun c => !isWs c))

/-- The regex fragment `\s+`: at least one whitespace character, consumed
maximally. -/
def eatWs1 : Chars → Option Chars
  | [] => none
  | c :: cs => if isWs c then some (cs.dropWhile isWs) else none

/-- Case-insensitive character comparison (`re.IGNORECASE` on literals). -/
def lowEq (p c : Char) : Bool := p.toLower == c.toLower

/-- Case-insensitive literal match, returning the rest of the input. -/
def eatCI : Chars → Chars → Option Chars
  | [], cs => some cs
  | _ :: _, [] => none
  | p :: ps, c :: cs => if lowEq p c then eatCI ps cs else none

/-- The regex fragment `[class]*`: maximal run of class characters. -/
def takeClass (cl : Char → Bool) (cs : Chars) : Chars :=
  cs.takeWhile cl

/-- The class `\w` for the ASCII inputs the tool processes. -/
def wordChar (c : Char) : Bool := c.isAlpha || c.isDigit || c == '_'

/-- The value class of `_extract_param` in `Jcl.py`: `[\w\.\$#@\(\)]`. -/
def classJcl (c : Char) : Bool :=
  wordChar c || c == '.' || c == '$' || c == '#' || c == '@' || c == '(' || c == ')'

/-- The value class of `_extract_param` in `test_e2e_real.py`: adds `&`. -/
def classE2E (c : Char) : Bool := classJcl c || c == '&'

/-- The class `[A-Z0-9#@$]` under `IGNORECASE`. -/
def pgmClass (c : Char) : Bool :=
  c.isAlpha || c.isDigit || c == '#' || c == '@' || c == '$'

def kwEXEC : Chars := ['E', 'X', 'E', 'C']

def kwPGMEQ : Chars := ['P', 'G', 'M', '=']

def kwDD : Chars := ['D', 'D']

def kwDSN : Chars := ['D', 'S', 'N']

def kwRECFM : Chars := ['R', 'E', 'C', 'F', 'M']

def kwLRECL : Chars := ['L', 'R', 'E', 'C', 'L']

def kwBLKSIZE : Chars := ['B', 'L', 'K', 'S', 'I', 'Z', 'E']

/-- The step regex `^//(\S+)\s+EXEC\s+PGM=([A-Z0-9#@$]+)` under
`IGNORECASE`: on success, the captured step token and program token,
both exactly as written. -/
def stepCapture (cs : Chars) : Option (Chars × Chars) :=
  match cs with
  | '/' :: '/' :: rest =>
    let tok := (takeNS rest).1
    if tok.isEmpty then none
    else
      match eatWs1 (takeNS rest).2 with
      | none => none
      | some r2 =>
        match eatCI kwEXEC r2 with
        | none => none
        | some r3 =>
          match eatWs1 r3 with
          | none => none
          | some r4 =>
            match eatCI kwPGMEQ r4 with
            | none => none
            | some r5 =>
              let pgm := takeClass pgmClass r5
              if pgm.isEmpty then none else some (tok, pgm)
  | _ => none

/-- The DD regex `^//(\S+)\s+DD\s+` under `IGNORECASE`: on success, the
captured DD token, exactly as written. -/
def ddCapture (cs : Chars) : Option Chars :=
  match cs with
  | '/' :: '/' :: rest =>
    let tok := (takeNS rest).1
    if tok.isEmpty then none
    else
      match eatWs1 (takeNS rest).2 with
      | none => none
      | some r2 =>
        match eatCI kwDD r2 with
        | none => none
        | some r3 =>
          match eatWs1 r3 with
          | none => none
          | some _ => some tok
  | _ => none

/-- Try the pattern `KEY` followed by a non-empty class run at the current
position. -/
def tryKey (key : Chars) (cl : Char → Bool) (cs : Chars) : Option Chars :=
  match eatCI key cs with
  | none => none
  | some r =>
    let v := takeClass cl r
    if v.isEmpty then none else some v

/-- The `re.search` scan: leftmost position where `tryKey` succeeds. -/
def searchKey (key : Chars) (cl : Char → Bool) : Chars → Option Chars
  | [] => none
  | c :: cs =>
    match tryKey key cl (c :: cs) with
    | some v => some v
    | none => searchKey key cl cs

/-- `JCLParser._extract_param`: search `key=value`, strip parentheses from
the captured value. -/
def extractParam (cl : Char → Bool) (key : Chars) (line : Chars) : Option Chars :=
  (searchKey (key ++ ['=']) cl line).map
    (fun v => v.filter (fun c => !(c == '(' || c == ')')))

def kwDISPEQ : Chars := ['D', 'I', 'S', 'P', '=']

/-- Try the pattern `DISP=\(?([A-Z]*)` at the current position. -/
def tryDisp (cs : Chars) : Option Chars :=
  match eatCI kwDISPEQ cs with
  | none => none
  | some r =>
    let r2 := match r with
      | '(' :: t => t
      | _ => r
    some (r2.takeWhile (fun c => c.isAlpha))

/-- Leftmost match of the disposition pattern. -/
def searchDisp : Chars → Option Chars
  | [] => none
  | c :: cs =>
    match tryDisp (c :: cs) with
    | some v => some v
    | none => searchDisp cs

def dispSet : List Chars :=
  [ ['N', 'E', 'W'], ['O', 'L', 'D'], ['S', 'H', 'R'], ['M', 'O', 'D'] ]

/-- `JCLParser._extract_disp` (present only in `test_e2e_real.py`):
uppercase the captured run and keep it only if it is one of the four
dispositions. -/
def extractDisp (line : Chars) : Option Chars :=
  match searchDisp line with
  | none => none
  | some v =>
    let u := v.map Char.toUpper
    if dispSet.contains u then some u else none

/-- One data definition of the script model (`attrs` dictionary of
`_parse_lines`; the `DISP` field is `none` for the `Jcl.py` variant,
which does not extract it). -/
structure DataDef where
  dd : Chars
  dsn : Chars
  disp : Option Chars
  recfm : Option Chars
  lrecl : Option Chars
  blksize : Option Chars
  deriving DecidableEq

/-- One step of the script model (`steps[name]` dictionary). -/
structure StepRec where
  name : Chars
  pgm : Chars
  dds : List DataDef
  deriving DecidableEq

/-- The fold state of `_parse_lines`: the insertion-ordered step mapping
and the current step name. -/
structure PState where
  steps : List StepRec
  current : Option Chars
  deriving DecidableEq

/-- Python dict assignment `steps[name] = value`: overwrite in place,
keeping the key position, or append a new entry. -/
def upsert : List StepRec → StepRec → List StepRec
  | [], s => [s]
  | t :: ts, s => if t.name = s.name then s :: ts else t :: upsert ts s

/-- `steps[current]["DDS"].append(d)`. -/
def addDD (steps : List StepRec) (name : Chars) (d : DataDef) : List StepRec :=
  steps.map (fun st => if st.name = name then { st with dds := st.dds ++ [d] } else st)

/-- One iteration of the statement loop of `JCLParser._parse_lines`.
`cl` is the `_extract_param` value class and `useDisp` selects the
`test_e2e_real.py` variant, which additionally captures `DISP`. -/
def parseLine (cl : Char → Bool) (useDisp : Bool) (st : PState) (line : Chars) : PState :=
  match stepCapture line with
  | some (tok, pgmRaw) =>
    { steps := upsert st.steps ⟨tok, pgmRaw.map Char.toUpper, []⟩, current := some tok }
  | none =>
    match st.current with
    | none => st
    | some cur =>
      match ddCapture line with
      | none => st
      | some ddTok =>
        match extractParam cl kwDSN line with
        | none => st
        | some dsnVal =>
          if dsnVal.isEmpty then st
          else
            let d : DataDef :=
              { dd := ddTok.map Char.toUpper
                dsn := dsnVal
                disp := if useDisp then extractDisp line else none
                recfm := extractParam cl kwRECFM line
                lrecl := extractParam cl kwLRECL line
                blksize := extractParam cl kwBLKSIZE line }
            { st with steps := addDD st.steps cur d }

/-- `JCLParser._parse_lines`: fold the statement loop over the logical
statements, starting from an empty model and no current step. -/
def parseLines (cl : Char → Bool) (useDisp : Bool) (lines : List Chars) : List StepRec :=
  (lines.foldl (parseLine cl useDisp) ⟨[], none⟩).steps

/-- `JCLParser` of `Jcl.py`: normalize, then parse (no `DISP`, no `&`). -/
def parseJcl (content : Chars) : List StepRec :=
  parseLines classJcl false (normalizeJcl content)

/-- `JCLParser` of `test_e2e_real.py`: normalize, then parse with `DISP`
extraction and `&` in the value class. -/
def parseE2E (content : Chars) : List StepRec :=
  parseLines classE2E true (normalizeJcl content)

/-- One sibling Excel row handed to `AttributeResolver.__init__`. -/
structure SiblingRow where
  dataset : Chars
  recfmVal : Chars
  lreclVal : Option Chars
  blksizeVal : Option Chars
  deriving DecidableEq

/-- The `META` dictionary of a resolver result. -/
structure MetaInfo where
  step : Chars
  pgm : Chars
  dd : Chars
  deriving DecidableEq

/-- A resolver result dictionary: provenance `Z`, attributes `AA`/`AB`/`AC`,
metadata and status. -/
structure Resolved where
  z : Chars
  aa : Option Chars
  ab : Option Chars
  ac : Option Chars
  meta : MetaInfo
  status : Chars
  deriving DecidableEq

/-- The `dsn_map` lookup of `AttributeResolver`: dictionary comprehension
over the group rows keyed by non-empty dataset name, later rows winning. -/
def dsnLookup (rows : List SiblingRow) (d : Chars) : Option SiblingRow :=
  (rows.filter (fun r => !r.dataset.isEmpty && r.dataset == d)).getLast?

/-- `SORT_PROGRAMS` of `Jcl.py`. -/
def sortProgramsJcl : List Chars :=
  [ ['S', 'O', 'R', 'T'], ['I', 'C', 'E', 'M', 'A', 'N'],
    ['D', 'F', 'S', 'O', 'R', 'T'], ['S', 'Y', 'N', 'C', 'S', 'O', 'R', 'T'],
    ['I', 'E', 'B', 'G', 'E', 'N', 'E', 'R'],
    ['I', 'C', 'E', 'G', 'E', 'N', 'E', 'R'] ]

/-- `SORT_PROGRAMS` of `test_e2e_real.py`. -/
def sortProgramsE2E : List Chars :=
  [ ['S', 'O', 'R', 'T'], ['K', 'Q', 'C', 'A', 'M', 'S'],
    ['J', 'E', 'D', 'G', 'E', 'N', 'E', 'R'] ]

/-- `dd_name.startswith("SORTOUT") or dd_name == "SYSUT2"`. -/
def isOutput (dd : Chars) : Bool :=
  pfx ['S', 'O', 'R', 'T', 'O', 'U', 'T'] dd || dd == ['S', 'Y', 'S', 'U', 'T', '2']

/-- Python truthiness of an extracted attribute: present and non-empty. -/
def truthy : Option Chars → Bool
  | none => false
  | some s => !s.isEmpty

/-- `all_matches` of `test_e2e_real.py`: every (step, DD) pair whose DSN
equals the target, in step-then-DD order. -/
def allMatches (target : Chars) (steps : List StepRec) : List (StepRec × DataDef) :=
  steps.flatMap (fun st => (st.dds.filter (fun d => d.dsn == target)).map (fun d => (st, d)))

def cNEW : Chars := ['N', 'E', 'W']

/-- `creator_match`: the first match whose disposition is NEW. -/
def firstNew : List (StepRec × DataDef) → Option (StepRec × DataDef)
  | [] => none
  | m :: ms => if m.2.disp = some cNEW then some m else firstNew ms

def zExplicit : Chars := "显式定义".data

def stExplicit : Chars := "完成(显式)".data

def rExplicit : Chars := "显式定义".data

def stInherit : Chars := "完成(继承)".data

def rInherit : Chars := "属性继承".data

def zCreator : Chars := "本JCL创建".data

def stCreator : Chars := "完成(创建)".data

def rCreator : Chars := "找到创建者".data

def zExternal : Chars := "外部数据集".data

def stExternal : Chars := "完成(外部)".data

def rExternal : Chars := "外部引用".data

def zRef : Chars := "仅引用".data

def stRef : Chars := "完成(引用)".data

def rRef : Chars := "找到引用".data

def rNoSteps : Chars := "JCL 中未找到有效的 STEP".data

def rNotFound : Chars := "在 JCL 中未找到该 Dataset".data

/-- The "显式定义" result dictionary: the definition's own attributes. -/
def explicitRes (st : StepRec) (d : DataDef) : Resolved :=
  { z := zExplicit, aa := d.recfm, ab := d.lrecl, ac := d.blksize,
    meta := ⟨st.name, st.pgm, d.dd⟩, status := stExplicit }

/-- The inheritance result dictionary: provenance is the source DSN and the
attributes are copied from the sibling row. -/
def inheritRes (st : StepRec) (d : DataDef) (srcDsn : Chars) (src : SiblingRow) : Resolved :=
  { z := srcDsn, aa := some src.recfmVal, ab := src.lreclVal, ac := src.blksizeVal,
    meta := ⟨st.name, st.pgm, d.dd⟩, status := stInherit }

/-- The input DDs of a step: those that are not output slots. -/
def inputDds (st : StepRec) : List DataDef :=
  st.dds.filter (fun d => !isOutput d.dd)

/-- The body of the priority-1/2 loop of `test_e2e_real.py`'s `resolve`
for one match: `some` when the match fires the explicit or inheritance
rule, `none` when it contributes nothing. -/
def matchResult (rows : List SiblingRow) (m : StepRec × DataDef) : Option (Resolved × Chars) :=
  if sortProgramsE2E.contains m.1.pgm then
    if isOutput m.2.dd then
      if truthy m.2.lrecl && truthy m.2.recfm then some (explicitRes m.1 m.2, rExplicit)
      else
        match (inputDds m.1).head? with
        | none => none
        | some fi =>
          match dsnLookup rows fi.dsn with
          | none => none
          | some src => some (inheritRes m.1 m.2 fi.dsn src, rInherit)
    else none
  else none

/-- The priority-1/2 loop over `all_matches`. -/
def scanMatches (rows : List SiblingRow) : List (StepRec × DataDef) → Option (Resolved × Chars)
  | [] => none
  | m :: ms =>
    match matchResult rows m with
    | some r => some r
    | none => scanMatches rows ms

/-- The priority-3 creator result dictionary. -/
def creatorRes (m : StepRec × DataDef) : Resolved :=
  { z := zCreator, aa := m.2.recfm, ab := m.2.lrecl, ac := m.2.blksize,
    meta := ⟨m.1.name, m.1.pgm, m.2.dd⟩, status := stCreator }

/-- The priority-4 external result dictionary. -/
def externalRes (m : StepRec × DataDef) : Resolved :=
  { z := zExternal, aa := m.2.recfm, ab := m.2.lrecl, ac := m.2.blksize,
    meta := ⟨m.1.name, m.1.pgm, m.2.dd⟩, status := stExternal }

/-- The rule chain of `test_e2e_real.py`'s `resolve` applied to the
collected match list. -/
def resolveCore (rows : List SiblingRow) (ms : List (StepRec × DataDef)) :
    Option Resolved × Chars :=
  match ms with
  | [] => (none, rNotFound)
  | m :: rest =>
    match scanMatches rows (m :: rest) with
    | some (r, s) => (some r, s)
    | none =>
      match firstNew (m :: rest) with
      | some c => (some (creatorRes c), rCreator)
      | none => (some (externalRes m), rExternal)

/-- `AttributeResolver.resolve` of `test_e2e_real.py`. -/
def resolveE2E (rows : List SiblingRow) (target : Chars) (steps : List StepRec) :
    Option Resolved × Chars :=
  if steps.isEmpty then (none, rNoSteps) else resolveCore rows (allMatches target steps)

/-- The "仅引用" fallback result dictionary of `Jcl.py`. -/
def refRes (st : StepRec) (d : DataDef) : Resolved :=
  { z := zRef, aa := d.recfm, ab := d.lrecl, ac := d.blksize,
    meta := ⟨st.name, st.pgm, d.dd⟩, status := stRef }

/-- The step loop of `Jcl.py`'s `resolve`: per step, only the first DD
matching the target is considered; the first match establishes the
fallback; sort-program output slots may return early. -/
def resolveJclGo (rows : List SiblingRow) (target : Chars) :
    List StepRec → Option (Resolved × Chars) → Option Resolved × Chars
  | [], fb =>
    match fb with
    | some (r, s) => (some r, s)
    | none => (none, rNotFound)
  | st :: rest, fb =>
    match (st.dds.filter (fun d => d.dsn == target)).head? with
    | none => resolveJclGo rows target rest fb
    | some d =>
      let fb2 := match fb with
        | some f => some f
        | none => some (refRes st d, rRef)
      if sortProgramsJcl.contains st.pgm && isOutput d.dd then
        if truthy d.lrecl && truthy d.recfm then (some (explicitRes st d), rExplicit)
        else
          match (inputDds st).head? with
          | none => resolveJclGo rows target rest fb2
          | some fi =>
            match dsnLookup rows fi.dsn with
            | none => resolveJclGo rows target rest fb2
            | some src => (some (inheritRes st d fi.dsn src), rInherit)
      else resolveJclGo rows target rest fb2

/-- `AttributeResolver.resolve` of `Jcl.py`. -/
def resolveJcl (rows : List SiblingRow) (target : Chars) (steps : List StepRec) :
    Option Resolved × Chars :=
  if steps.isEmpty then (none, rNoSteps) else resolveJclGo rows target steps none

/-! ### Concrete fixtures used by the witness theorems -/

/-- Scenario A/B input DD: `SORTIN` referencing `INPUT.DATA`. -/
def wDdIn : DataDef :=
  ⟨("SORTIN").data, ("INPUT.DATA").data, some ("SHR").data, none, none, none⟩

/-- Scenario A output DD: `SORTOUT` with explicit attributes. -/
def wDdOut : DataDef :=
  ⟨("SORTOUT").data, ("OUTPUT.DATA").data, none,
    some ("FB").data, some ("80").data, some ("800").data⟩

/-- Scenario A sort step. -/
def wStepA : StepRec := ⟨("STEP01").data, ("SORT").data, [wDdIn, wDdOut]⟩

/-- A later step that creates `OUTPUT.DATA` with disposition NEW. -/
def wDdNew : DataDef :=
  ⟨("OUT2").data, ("OUTPUT.DATA").data, some ("NEW").data, none, none, none⟩

def wStepNew : StepRec := ⟨("STEP02").data, ("MYPGM").data, [wDdNew]⟩

/-- Scenario B output DD: `SORTOUT` without explicit attributes. -/
def wDdOutBare : DataDef :=
  ⟨("SORTOUT").data, ("OUTPUT.DATA").data, none, none, none, none⟩

def wStepB : StepRec := ⟨("STEP01").data, ("SORT").data, [wDdIn, wDdOutBare]⟩

/-- Scenario B sibling row for `INPUT.DATA`. -/
def wRowIn : SiblingRow :=
  ⟨("INPUT.DATA").data, ("FB").data, some ("100").data, some ("1000").data⟩

/-- Scenario C: `MY.DATA` read with SHR in STEP01 and created with NEW in
STEP02, program not in the sort set. -/
def wDdShr : DataDef :=
  ⟨("DD1").data, ("MY.DATA").data, some ("SHR").data, none, none, none⟩

def wDdNewC : DataDef :=
  ⟨("DD2").data, ("MY.DATA").data, some ("NEW").data,
    some ("FB").data, some ("80").data, none⟩

def wStepC1 : StepRec := ⟨("STEP01").data, ("PGM1").data, [wDdShr]⟩

def wStepC2 : StepRec := ⟨("STEP02").data, ("PGM2").data, [wDdNewC]⟩

/-- Scenario D: `EXTERNAL.DATA` referenced with SHR in two steps. -/
def wDdExt1 : DataDef :=
  ⟨("DDA").data, ("EXTERNAL.DATA").data, some ("SHR").data,
    some ("VB").data, none, none⟩

def wDdExt2 : DataDef :=
  ⟨("DDB").data, ("EXTERNAL.DATA").data, some ("SHR").data, none, none, none⟩

def wStepD1 : StepRec := ⟨("STEP01").data, ("PGM1").data, [wDdExt1]⟩

def wStepD2 : StepRec := ⟨("STEP02").data, ("PGM2").data, [wDdExt2]⟩

/-- A script on which the two resolver implementations disagree: a
non-sort program creates `MY.DATA` with disposition NEW. -/
def wTxtDup : Chars :=
  ("//STEP01 EXEC PGM=MYPGM\n//DD1 DD DSN=MY.DATA,DISP=NEW").data

/-- The DD that `parseE2E` extracts from `wTxtDup`. -/
def wDdDup : DataDef :=
  ⟨("DD1").data, ("MY.DATA").data, some ("NEW").data, none, none, none⟩

/-- The step that `parseE2E` extracts from `wTxtDup`. -/
def wStepDup : StepRec := ⟨("STEP01").data, ("MYPGM").data, [wDdDup]⟩

/-! ### Helper lemmas about the rule chain -/

theorem scanMatches_append_none (rows : List SiblingRow) (pre l : List (StepRec × DataDef))
    (h : ∀ x ∈ pre, matchResult rows x = none) :
    scanMatches rows (pre ++ l) = scanMatches rows l := by
  induction pre with
  | nil => rfl
  | cons p ps ih =>
    have hp := h p (by simp)
    simp only [List.cons_append, scanMatches, hp]
    exact ih (fun x hx => h x (by simp [hx]))

theorem scanMatches_eq_none (rows : List SiblingRow) (ms : List (StepRec × DataDef))
    (h : ∀ x ∈ ms, matchResult rows x = none) :
    scanMatches rows ms = none := by
  have := scanMatches_append_none rows ms [] h
  simpa using this

theorem firstNew_append_none (pre l : List (StepRec × DataDef))
    (h : ∀ x ∈ pre, ¬(x.2.disp = some cNEW)) :
    firstNew (pre ++ l) = firstNew l := by
  induction pre with
  | nil => rfl
  | cons p ps ih =>
    have hp := h p (by simp)
    simp only [List.cons_append, firstNew, if_neg hp]
    exact ih (fun x hx => h x (by simp [hx]))

theorem firstNew_eq_none (ms : List (StepRec × DataDef))
    (h : ∀ x ∈ ms, ¬(x.2.disp = some cNEW)) :
    firstNew ms = none := by
  have := firstNew_append_none ms [] h
  simpa using this

theorem resolveCore_of_scan_some (rows : List SiblingRow) (ms : List (StepRec × DataDef))
    (r : Resolved) (s : Chars) (hne : ms ≠ [])
    (h : scanMatches rows ms = some (r, s)) :
    resolveCore rows ms = (some r, s) := by
  cases ms with
  | nil => exact absurd rfl hne
  | cons m rest => simp [resolveCore, h]

theorem resolveCore_isSome (rows : List SiblingRow) (ms : List (StepRec × DataDef))
    (hne : ms ≠ []) : ∃ r s, resolveCore rows ms = (some r, s) := by
  cases ms with
  | nil => exact absurd rfl hne
  | cons m rest =>
    cases hscan : scanMatches rows (m :: rest) with
    | some p => exact ⟨p.1, p.2, by simp [resolveCore, hscan]⟩
    | none =>
      cases hfn : firstNew (m :: rest) with
      | some c => exact ⟨creatorRes c, rCreator, by simp [resolveCore, hscan, hfn]⟩
      | none => exact ⟨externalRes m, rExternal, by simp [resolveCore, hscan, hfn]⟩

theorem allMatches_cons (target : Chars) (st : StepRec) (rest : List StepRec) :
    allMatches target (st :: rest) =
      ((st.dds.filter (fun d => d.dsn == target)).map (fun d => (st, d)))
        ++ allMatches target rest := by
  simp [allMatches]

theorem allMatches_eq_nil_iff (target : Chars) (steps : List StepRec) :
    allMatches target steps = [] ↔ ∀ st ∈ steps, ∀ d ∈ st.dds, ¬(d.dsn = target) := by
  induction steps with
  | nil => simp [allMatches]
  | cons st rest ih =>
    rw [allMatches_cons, List.append_eq_nil, ih]
    simp [List.map_eq_nil_iff, List.filter_eq_nil_iff]

theorem isEmpty_false_of_ne_nil (steps : List StepRec) (h : steps ≠ []) :
    steps.isEmpty = false := by
  cases steps with
  | nil => exact absurd rfl h
  | cons a l => rfl

/-! ### The claims about the attribute resolver -/

/-- C1: when the matches for the target dataset are scanned in step-then-DD
order and a match is reached whose owning step's program is in the sort
set, whose ddName is an output slot, and which carries both a record
format and a record length — no earlier match having produced an explicit
or inherited result — `resolve` returns the "显式定义" ("explicit")
result built from that definition's own RECFM/LRECL/BLKSIZE with status
"完成(显式)" and metadata naming that step, program and ddName, no matter
what follows in the match list (in particular a later NEW-disposition
match cannot preempt it). -/
theorem sort_explicit_priority (rows : List SiblingRow) (target : Chars)
    (steps : List StepRec) (pre post : List (StepRec × DataDef)) (m : StepRec × DataDef)
    (hs : steps ≠ [])
    (hm : allMatches target steps = pre ++ m :: post)
    (hpre : ∀ x ∈ pre, matchResult rows x = none)
    (hsort : sortProgramsE2E.contains m.1.pgm = true)
    (hout : isOutput m.2.dd = true)
    (hl : truthy m.2.lrecl = true)
    (hr : truthy m.2.recfm = true) :
    resolveE2E rows target steps = (some (explicitRes m.1 m.2), rExplicit) := by
  have hsort2 : m.1.pgm ∈ sortProgramsE2E := by simpa using hsort
  have hmr : matchResult rows m = some (explicitRes m.1 m.2, rExplicit) := by
    simp [matchResult, hsort2, hout, hl, hr]
  have hscan : scanMatches rows (allMatches target steps) =
      some (explicitRes m.1 m.2, rExplicit) := by
    rw [hm, scanMatches_append_none rows pre _ hpre]
    simp [scanMatches, hmr]
  have hne : allMatches target steps ≠ [] := by
    rw [hm]; exact List.append_ne_nil_of_right_ne_nil _ (List.cons_ne_nil _ _)
  rw [resolveE2E, isEmpty_false_of_ne_nil steps hs]
  simpa using resolveCore_of_scan_some rows _ _ _ hne hscan

/-- C1 witness: scenario A — a `SORT` step whose `SORTOUT` carries explicit
RECFM/LRECL/BLKSIZE resolves to the explicit result even though a later
step creates the same dataset with disposition NEW. -/
theorem sort_explicit_priority_witness :
    resolveE2E [] ("OUTPUT.DATA").data [wStepA, wStepNew]
      = (some (explicitRes wStepA wDdOut), rExplicit) :=
  sort_explicit_priority [] (("OUTPUT.DATA").data) [wStepA, wStepNew]
    [] [(wStepNew, wDdNew)] (wStepA, wDdOut)
    (by decide) (by decide) (by decide) (by decide) (by decide) (by decide) (by decide)

/-- C3: when no match in the whole list fires the sort-family explicit or
inheritance rules and some match has disposition NEW, `resolve` returns
the "本JCL创建" ("self-created") result with the attributes (each
independently optional) and the metadata of the first NEW-disposition
match in scan order — so a NEW occurrence in a later step wins over a
non-NEW occurrence in an earlier step. -/
theorem creator_priority (rows : List SiblingRow) (target : Chars)
    (steps : List StepRec) (pre post : List (StepRec × DataDef)) (c : StepRec × DataDef)
    (hs : steps ≠ [])
    (hm : allMatches target steps = pre ++ c :: post)
    (hall : ∀ x ∈ pre ++ c :: post, matchResult rows x = none)
    (hpre : ∀ x ∈ pre, ¬(x.2.disp = some cNEW))
    (hc : c.2.disp = some cNEW) :
    resolveE2E rows target steps = (some (creatorRes c), rCreator) := by
  have hscan : scanMatches rows (allMatches target steps) = none := by
    rw [hm]; exact scanMatches_eq_none rows _ hall
  have hfn : firstNew (allMatches target steps) = some c := by
    rw [hm, firstNew_append_none pre _ hpre]
    simp [firstNew, hc]
  rw [resolveE2E, isEmpty_false_of_ne_nil steps hs]
  rcases hcons : allMatches target steps with _ | ⟨m, rest⟩
  · rw [hcons] at hm
    exact absurd hm.symm (List.append_ne_nil_of_right_ne_nil _ (List.cons_ne_nil _ _))
  · rw [hcons] at hscan hfn
    simp [resolveCore, hscan, hfn]

/-- C3 witness: scenario C — `MY.DATA` is read (SHR) in STEP01 and created
(NEW) in STEP02 by a non-sort program; the NEW occurrence in the later
step provides the result. -/
theorem creator_priority_witness :
    resolveE2E [] ("MY.DATA").data [wStepC1, wStepC2]
      = (some (creatorRes (wStepC2, wDdNewC)), rCreator) :=
  creator_priority [] (("MY.DATA").data) [wStepC1, wStepC2]
    [(wStepC1, wDdShr)] [] (wStepC2, wDdNewC)
    (by decide) (by decide) (by decide) (by decide) (by decide)

/-- C4: a sort-program output-slot match that lacks the explicit
RECFM+LRECL pair inspects the same step's data definitions whose ddName
is not an output slot and takes the first such input definition: if that
input's dataset name is found in the sibling-row index, `resolve` returns
the inheritance result — provenance the source dataset name, attributes
copied from the sibling row, status "完成(继承)" — and otherwise the
match contributes nothing and the scan continues past it. -/
theorem sort_inheritance (rows : List SiblingRow) (target : Chars)
    (steps : List StepRec) (pre post : List (StepRec × DataDef)) (m : StepRec × DataDef)
    (hs : steps ≠ [])
    (hm : allMatches target steps = pre ++ m :: post)
    (hpre : ∀ x ∈ pre, matchResult rows x = none)
    (hsort : sortProgramsE2E.contains m.1.pgm = true)
    (hout : isOutput m.2.dd = true)
    (hnp : (truthy m.2.lrecl && truthy m.2.recfm) = false) :
    (∀ fi src, (inputDds m.1).head? = some fi → dsnLookup rows fi.dsn = some src →
        resolveE2E rows target steps = (some (inheritRes m.1 m.2 fi.dsn src), rInherit))
    ∧ (((inputDds m.1).head?.bind (fun fi => dsnLookup rows fi.dsn)) = none →
        scanMatches rows (pre ++ m :: post) = scanMatches rows post) := by
  have hsort2 : m.1.pgm ∈ sortProgramsE2E := by simpa using hsort
  constructor
  · intro fi src hfi hsrc
    have hmr : matchResult rows m = some (inheritRes m.1 m.2 fi.dsn src, rInherit) := by
      simp [matchResult, hsort2, hout, hnp, hfi, hsrc]
    have hscan : scanMatches rows (allMatches target steps) =
        some (inheritRes m.1 m.2 fi.dsn src, rInherit) := by
      rw [hm, scanMatches_append_none rows pre _ hpre]
      simp [scanMatches, hmr]
    have hne : allMatches target steps ≠ [] := by
      rw [hm]; exact List.append_ne_nil_of_right_ne_nil _ (List.cons_ne_nil _ _)
    rw [resolveE2E, isEmpty_false_of_ne_nil steps hs]
    simpa using resolveCore_of_scan_some rows _ _ _ hne hscan
  · intro hnone
    have hmr : matchResult rows m = none := by
      rcases hfi : (inputDds m.1).head? with _ | fi
      · simp [matchResult, hsort2, hout, hnp, hfi]
      · rw [hfi] at hnone
        simp only [Option.some_bind] at hnone
        simp [matchResult, hsort2, hout, hnp, hfi, hnone]
    rw [scanMatches_append_none rows pre _ hpre]
    simp [scanMatches, hmr]

/-- C4 witness: scenario B — `SORTOUT` carries no attributes and a sibling
row exists for `INPUT.DATA`, so `OUTPUT.DATA` inherits RECFM=FB,
LRECL=100, BLKSIZE=1000 from it. -/
theorem sort_inheritance_witness :
    resolveE2E [wRowIn] ("OUTPUT.DATA").data [wStepB]
      = (some (inheritRes wStepB wDdOutBare (("INPUT.DATA").data) wRowIn), rInherit) :=
  (sort_inheritance [wRowIn] (("OUTPUT.DATA").data) [wStepB]
      [] [] (wStepB, wDdOutBare)
      (by decide) (by decide) (by decide) (by decide) (by decide) (by decide)).1
    wDdIn wRowIn (by decide) (by decide)

/-- C5: when the match list is non-empty but no sort-family rule fires on
any match and no match has disposition NEW, `resolve` returns the
"外部数据集" ("external dataset") result with the attributes and the
step/program/DD metadata of the very first entry of the match list, i.e.
of the first step in model order in which the dataset appears. -/
theorem external_fallback (rows : List SiblingRow) (target : Chars)
    (steps : List StepRec) (m : StepRec × DataDef) (rest : List (StepRec × DataDef))
    (hs : steps ≠ [])
    (hm : allMatches target steps = m :: rest)
    (hall : ∀ x ∈ m :: rest, matchResult rows x = none)
    (hnonew : ∀ x ∈ m :: rest, ¬(x.2.disp = some cNEW)) :
    resolveE2E rows target steps = (some (externalRes m), rExternal) := by
  have hscan : scanMatches rows (allMatches target steps) = none := by
    rw [hm]; exact scanMatches_eq_none rows _ hall
  have hfn : firstNew (allMatches target steps) = none := by
    rw [hm]; exact firstNew_eq_none _ hnonew
  rw [resolveE2E, isEmpty_false_of_ne_nil steps hs, hm]
  rw [hm] at hscan hfn
  simp [resolveCore, hscan, hfn]

/-- C5 witness: scenario D — `EXTERNAL.DATA` appears only with disposition
SHR in two steps; the result is external, taken from STEP01, the first
step in which it appears. -/
theorem external_fallback_witness :
    resolveE2E [] ("EXTERNAL.DATA").data [wStepD1, wStepD2]
      = (some (externalRes (wStepD1, wDdExt1)), rExternal) :=
  external_fallback [] (("EXTERNAL.DATA").data) [wStepD1, wStepD2]
    (wStepD1, wDdExt1) [(wStepD2, wDdExt2)]
    (by decide) (by decide) (by decide) (by decide)

/-- C6: `resolve` is a total function (the embedding is a Lean function,
so it can raise no exception); it returns the absent result with reason
"JCL 中未找到有效的 STEP" exactly when the script model has no steps,
the absent result with reason "在 JCL 中未找到该 Dataset" exactly when
no data definition of any step references the target dataset, and in
every other case a populated attribute record. -/
theorem resolve_total_outcomes (rows : List SiblingRow) (target : Chars)
    (steps : List StepRec) :
    (steps = [] → resolveE2E rows target steps = (none, rNoSteps))
    ∧ (steps ≠ [] → (∀ st ∈ steps, ∀ d ∈ st.dds, ¬(d.dsn = target)) →
        resolveE2E rows target steps = (none, rNotFound))
    ∧ (steps ≠ [] → (∃ st ∈ steps, ∃ d ∈ st.dds, d.dsn = target) →
        ∃ r reason, resolveE2E rows target steps = (some r, reason)) := by
  refine ⟨?_, ?_, ?_⟩
  · intro h; subst h; rfl
  · intro hs hnone
    have hnil : allMatches target steps = [] := (allMatches_eq_nil_iff target steps).mpr hnone
    rw [resolveE2E, isEmpty_false_of_ne_nil steps hs, hnil]
    rfl
  · intro hs hex
    have hne : allMatches target steps ≠ [] := by
      intro hnil
      rcases hex with ⟨st, hst, d, hd, hdsn⟩
      exact (allMatches_eq_nil_iff target steps).mp hnil st hst d hd hdsn
    obtain ⟨r, s, hr⟩ := resolveCore_isSome rows (allMatches target steps) hne
    exact ⟨r, s, by rw [resolveE2E, isEmpty_false_of_ne_nil steps hs]; simpa using hr⟩

/-- C6 witness: the empty model yields the "no steps" outcome, a model not
mentioning the dataset yields the "not found" outcome, and a model
mentioning it yields a populated record. -/
theorem resolve_total_outcomes_witness :
    resolveE2E [] ("X").data [] = (none, rNoSteps)
    ∧ resolveE2E [] ("NOT.THERE").data [wStepC1] = (none, rNotFound)
    ∧ ∃ r reason, resolveE2E [] ("MY.DATA").data [wStepC1] = (some r, reason) :=
  ⟨(resolve_total_outcomes [] (("X").data) []).1 rfl,
   (resolve_total_outcomes [] (("NOT.THERE").data) [wStepC1]).2.1
     (by decide) (by decide),
   (resolve_total_outcomes [] (("MY.DATA").data) [wStepC1]).2.2
     (by decide) ⟨wStepC1, by decide, wDdShr, by decide, by decide⟩⟩

/-! ### C2: the two near-duplicate implementations -/

theorem resolveJclGo_fb_isSome (rows : List SiblingRow) (target : Chars)
    (steps : List StepRec) (f : Resolved × Chars) :
    (resolveJclGo rows target steps (some f)).1.isSome = true := by
  obtain ⟨fr, fs⟩ := f
  induction steps with
  | nil => rfl
  | cons st rest ih =>
    simp only [resolveJclGo]
    split
    · exact ih
    · split
      · split
        · rfl
        · split
          · exact ih
          · split
            · exact ih
            · rfl
      · exact ih

theorem resolveJclGo_none_iff (rows : List SiblingRow) (target : Chars)
    (steps : List StepRec) :
    ((resolveJclGo rows target steps none).1 = none ↔
      ∀ st ∈ steps, ∀ d ∈ st.dds, ¬(d.dsn = target)) := by
  induction steps with
  | nil => simp [resolveJclGo]
  | cons st rest ih =>
    rcases hfil : st.dds.filter (fun x => x.dsn == target) with _ | ⟨d, t⟩
    · have hst : ∀ d ∈ st.dds, ¬(d.dsn = target) := by
        have hall := List.filter_eq_nil_iff.mp hfil
        intro d hd hdsn
        exact hall d hd (by simp [hdsn])
      simp only [resolveJclGo, hfil, List.head?_nil]
      rw [ih, List.forall_mem_cons]
      exact ⟨fun h => ⟨hst, h⟩, fun h => h.2⟩
    · have hd : d ∈ st.dds ∧ (d.dsn == target) = true := by
        have : d ∈ st.dds.filter (fun x => x.dsn == target) := by
          rw [hfil]; exact List.mem_cons_self d t
        exact List.mem_filter.mp this
    -- every branch of the step body keeps a some fallback, so the result is present
      have hsome : (resolveJclGo rows target (st :: rest) none).1.isSome = true := by
        simp only [resolveJclGo, hfil, List.head?_cons]
        split
        · split
          · rfl
          · split
            · exact resolveJclGo_fb_isSome rows target rest _
            · split
              · exact resolveJclGo_fb_isSome rows target rest _
              · rfl
        · exact resolveJclGo_fb_isSome rows target rest _
      refine iff_of_false ?_ ?_
      · intro h
        rw [h] at hsome
        exact Bool.noConfusion hsome
      · intro h
        exact h st (List.mem_cons_self st rest) d hd.1 (by simpa using hd.2)

theorem resolveCore_none_iff (rows : List SiblingRow) (ms : List (StepRec × DataDef)) :
    (resolveCore rows ms).1 = none ↔ ms = [] := by
  constructor
  · intro h
    by_contra hne
    obtain ⟨r, s, hr⟩ := resolveCore_isSome rows ms hne
    rw [hr] at h
    exact Option.noConfusion h
  · intro h
    subst h
    rfl

/-- C2 counterexample: on the same script text, the same target dataset
and the same (empty) sibling-row group, the `Jcl.py` resolver returns the
"仅引用" reference result while the `test_e2e_real.py` resolver returns
the "本JCL创建" creator result, so the two near-duplicate implementations
do not produce the same resolution outcome. -/
theorem resolver_duplicates_differ :
    resolveJcl [] (("MY.DATA").data) (parseJcl wTxtDup)
      ≠ resolveE2E [] (("MY.DATA").data) (parseE2E wTxtDup) := by
  decide

/-- C2 amended: given the same parsed script model and sibling rows, the
two resolver implementations agree on the present/absent decision — both
are absent exactly when the model has no steps or no data definition
matches the target — but not on the full resolution outcome: they differ
in sort-program sets, disposition handling, per-step scanning and
fallback labels, and their parsers build different models from the same
text. -/
theorem dual_resolvers_agree_on_presence (rows : List SiblingRow) (target : Chars)
    (steps : List StepRec) :
    ((resolveJcl rows target steps).1 = none) ↔
      ((resolveE2E rows target steps).1 = none) := by
  cases steps with
  | nil => simp [resolveJcl, resolveE2E]
  | cons st rest =>
    simp only [resolveJcl, resolveE2E, List.isEmpty_cons, Bool.false_eq_true, if_false]
    rw [resolveJclGo_none_iff, resolveCore_none_iff, allMatches_eq_nil_iff]

/-! ### C9: non-empty dataset names -/

theorem mem_upsert (l : List StepRec) (s0 st : StepRec) (h : st ∈ upsert l s0) :
    st ∈ l ∨ st = s0 := by
  induction l with
  | nil =>
    simp only [upsert, List.mem_singleton] at h
    exact Or.inr h
  | cons t ts ih =>
    simp only [upsert] at h
    split at h
    · rcases List.mem_cons.mp h with h1 | h1
      · exact Or.inr h1
      · exact Or.inl (List.mem_cons_of_mem t h1)
    · rcases List.mem_cons.mp h with h1 | h1
      · exact Or.inl (h1 ▸ List.mem_cons_self t ts)
      · rcases ih h1 with h2 | h2
        · exact Or.inl (List.mem_cons_of_mem t h2)
        · exact Or.inr h2

theorem mem_addDD (l : List StepRec) (name : Chars) (d : DataDef) (st : StepRec)
    (h : st ∈ addDD l name d) :
    ∃ st0 ∈ l, st = st0 ∨ st = { st0 with dds := st0.dds ++ [d] } := by
  rw [addDD, List.mem_map] at h
  obtain ⟨st0, hst0, heq⟩ := h
  refine ⟨st0, hst0, ?_⟩
  by_cases hn : st0.name = name
  · right
    rw [← heq]
    simp [hn]
  · left
    rw [← heq]
    simp [hn]

/-- The dsn-nonemptiness invariant of a parse state. -/
theorem parseLine_dsn_inv (cl : Char → Bool) (useDisp : Bool) (s : PState) (line : Chars)
    (h : ∀ st ∈ s.steps, ∀ d ∈ st.dds, ¬(d.dsn = [])) :
    ∀ st ∈ (parseLine cl useDisp s line).steps, ∀ d ∈ st.dds, ¬(d.dsn = []) := by
  intro st hst d hd
  rcases hsc : stepCapture line with _ | ⟨tok, pgmRaw⟩ <;>
    simp only [parseLine, hsc] at hst
  · rcases hcur : s.current with _ | cur <;> simp only [hcur] at hst
    · exact h st hst d hd
    · rcases hdd : ddCapture line with _ | ddTok <;> simp only [hdd] at hst
      · exact h st hst d hd
      · rcases hdsn : extractParam cl kwDSN line with _ | dsnVal <;>
          simp only [hdsn] at hst
        · exact h st hst d hd
        · by_cases hne : dsnVal.isEmpty = true
          · rw [if_pos hne] at hst
            exact h st hst d hd
          · rw [if_neg hne] at hst
            simp only at hst
            obtain ⟨st0, hst0, hcase⟩ := mem_addDD _ _ _ _ hst
            rcases hcase with rfl | rfl
            · exact h _ hst0 d hd
            · simp only [List.mem_append, List.mem_singleton] at hd
              rcases hd with hd | rfl
              · exact h _ hst0 d hd
              · intro habs
                have habs2 : dsnVal = [] := habs
                rw [habs2] at hne
                exact hne rfl
  · rcases mem_upsert _ _ _ hst with h1 | rfl
    · exact h st h1 d hd
    · exact absurd hd (List.not_mem_nil d)

theorem parseLines_dsn_inv (cl : Char → Bool) (useDisp : Bool) (lines : List Chars) :
    ∀ st ∈ parseLines cl useDisp lines, ∀ d ∈ st.dds, ¬(d.dsn = []) := by
  rw [parseLines]
  generalize hs : (⟨[], none⟩ : PState) = s0
  have h0 : ∀ st ∈ s0.steps, ∀ d ∈ st.dds, ¬(d.dsn = []) := by
    rw [← hs]
    intro st hst
    exact absurd hst (List.not_mem_nil st)
  clear hs
  induction lines generalizing s0 with
  | nil => exact h0
  | cons l ls ih => exact ih _ (parseLine_dsn_inv cl useDisp s0 l h0)

/-- C9: for every script text (under either parser variant), every data
definition of the resulting script model has a non-empty dataset name — a
DD statement from which no DSN value can be extracted, or whose extracted
value is empty after parenthesis stripping, is skipped at parse time. -/
theorem dataset_name_nonempty (content : Chars) (st : StepRec) (d : DataDef)
    (hst : st ∈ parseJcl content ∨ st ∈ parseE2E content) (hd : d ∈ st.dds) :
    ¬(d.dsn = []) := by
  rcases hst with hst | hst
  · exact parseLines_dsn_inv classJcl false (normalizeJcl content) st hst d hd
  · exact parseLines_dsn_inv classE2E true (normalizeJcl content) st hst d hd

/-- C9 witness: the DD parsed from the concrete script `wTxtDup` has the
non-empty dataset name `MY.DATA`. -/
theorem dataset_name_nonempty_witness : ¬(wDdDup.dsn = []) :=
  dataset_name_nonempty wTxtDup wStepDup wDdDup (Or.inr (by decide)) (by decide)

/-! ### Lemmas about trimming, prefixes and the statement marker -/

theorem listIsEmpty_false {α : Type} (l : List α) (h : l ≠ []) : l.isEmpty = false := by
  cases l with
  | nil => exact absurd rfl h
  | cons a t => rfl

theorem head_dropWhile_false (p : Char → Bool) (l : Chars) (c : Char)
    (h : (l.dropWhile p).head? = some c) : p c = false := by
  induction l with
  | nil => simp at h
  | cons a t ih =>
    rw [List.dropWhile_cons] at h
    by_cases hpa : p a = true
    · rw [if_pos hpa] at h
      exact ih h
    · rw [if_neg hpa] at h
      simp only [List.head?_cons, Option.some.injEq] at h
      subst h
      cases hv : p a with
      | false => rfl
      | true => exact absurd hv hpa

theorem getLast?_dropWhile (p : Char → Bool) (l : Chars) (h : l.dropWhile p ≠ []) :
    (l.dropWhile p).getLast? = l.getLast? := by
  conv_rhs => rw [← List.takeWhile_append_dropWhile p l]
  rw [List.getLast?_append]
  rcases hg : (l.dropWhile p).getLast? with _ | c
  · exact absurd (List.getLast?_eq_none_iff.mp hg) h
  · rfl

theorem dropWhile_eq_self_of_head (p : Char → Bool) (l : Chars)
    (h : ∀ c, l.head? = some c → p c = false) : l.dropWhile p = l := by
  cases l with
  | nil => rfl
  | cons a t =>
    have := h a rfl
    rw [List.dropWhile_cons]
    simp [this]

theorem trimL_head_not_ws (l : Chars) (c : Char) (h : (trimL l).head? = some c) :
    isWs c = false := by
  rw [trimL, List.head?_reverse] at h
  have hne : (l.dropWhile isWs).reverse.dropWhile isWs ≠ [] := by
    intro h0
    rw [h0] at h
    simp at h
  rw [getLast?_dropWhile _ _ hne, List.getLast?_reverse] at h
  exact head_dropWhile_false isWs l c h

theorem trimL_last_not_ws (l : Chars) (c : Char) (h : (trimL l).getLast? = some c) :
    isWs c = false := by
  rw [trimL, List.getLast?_reverse] at h
  exact head_dropWhile_false isWs _ c h

theorem trimL_eq_self (s : Chars)
    (h1 : ∀ c, s.head? = some c → isWs c = false)
    (h2 : ∀ c, s.getLast? = some c → isWs c = false) : trimL s = s := by
  rw [trimL, dropWhile_eq_self_of_head isWs s h1,
    dropWhile_eq_self_of_head isWs s.reverse
      (fun c hc => h2 c (by rwa [List.head?_reverse] at hc))]
  exact List.reverse_reverse s

theorem trimL_idem (l : Chars) : trimL (trimL l) = trimL l :=
  trimL_eq_self _ (trimL_head_not_ws l) (trimL_last_not_ws l)

theorem pfx_append (p a b : Chars) (h : pfx p a = true) : pfx p (a ++ b) = true := by
  induction p generalizing a with
  | nil => rfl
  | cons x xs ih =>
    cases a with
    | nil => exact absurd h (by simp [pfx])
    | cons c cs =>
      simp only [List.cons_append, pfx, Bool.and_eq_true] at h ⊢
      exact ⟨h.1, ih cs h.2⟩

theorem head?_of_pfx_ss (s : Chars) (h : pfx slashSlash s = true) :
    s.head? = some '/' := by
  cases s with
  | nil => exact absurd h (by simp [pfx, slashSlash])
  | cons c cs =>
    simp only [slashSlash, pfx, Bool.and_eq_true, beq_iff_eq] at h
    rw [List.head?_cons, ← h.1]

theorem ne_nil_of_pfx_ss (s : Chars) (h : pfx slashSlash s = true) : s ≠ [] := by
  intro h0
  rw [h0] at h
  exact absurd h (by simp [pfx, slashSlash])

theorem lastNotWs_append (a b : Chars)
    (ha : ∀ c, a.getLast? = some c → isWs c = false)
    (hb : ∀ c, b.getLast? = some c → isWs c = false) :
    ∀ c, (a ++ b).getLast? = some c → isWs c = false := by
  intro c h
  rw [List.getLast?_append] at h
  rcases hgb : b.getLast? with _ | cb
  · rw [hgb, Option.none_or] at h
    exact ha c h
  · rw [hgb] at h
    have hcb : cb = c := Option.some.injEq cb c ▸ h
    exact hb c (by rw [hgb, hcb])

theorem getLast?_drop_eq (x : Chars) (h : x.drop 2 ≠ []) :
    (x.drop 2).getLast? = x.getLast? := by
  conv_rhs => rw [← List.take_append_drop 2 x]
  rw [List.getLast?_append]
  rcases hg : (x.drop 2).getLast? with _ | c
  · exact absurd (List.getLast?_eq_none_iff.mp hg) h
  · rfl

theorem stripMarker_last_not_ws (x : Chars)
    (hx : ∀ c, x.getLast? = some c → isWs c = false) :
    ∀ c, (stripMarker x).getLast? = some c → isWs c = false := by
  intro c h
  rw [stripMarker] at h
  by_cases hp : pfx slashSlash x = true
  · rw [if_pos hp] at h
    have hne : (x.drop 2).dropWhile isWs ≠ [] := by
      intro h0
      rw [h0] at h
      simp at h
    rw [getLast?_dropWhile _ _ hne] at h
    have hdne : x.drop 2 ≠ [] := by
      intro h0
      rw [h0] at hne
      exact hne rfl
    rw [getLast?_drop_eq x hdne] at h
    exact hx c h
  · rw [if_neg hp] at h
    exact hx c h

theorem skipB_false_facts (t : Chars) (h : skipB t = false) :
    t.isEmpty = false ∧ pfx slashSlash t = true := by
  rw [skipB] at h
  simp only [Bool.or_eq_false_iff] at h
  refine ⟨h.1.1, ?_⟩
  have h2 := h.2
  simpa using h2

/-! ### C10: shape of the normalizer output -/

theorem normCore_good (ls : List Chars) :
    ∀ buf, (buf = [] ∨ (pfx slashSlash buf = true ∧
        ∀ c, buf.getLast? = some c → isWs c = false)) →
      ∀ s ∈ normCore ls buf, s ≠ [] ∧ pfx slashSlash s = true ∧ trimL s = s := by
  induction ls with
  | nil =>
    intro buf _ s hs
    simp [normCore] at hs
  | cons l rest ih =>
    intro buf hbuf s hs
    by_cases hskip : skipB (trimL l) = true
    · simp only [normCore, hskip, if_true] at hs
      exact ih buf hbuf s hs
    · have hskipf : skipB (trimL l) = false := by
        cases hv : skipB (trimL l) with
        | false => rfl
        | true => exact absurd hv hskip
      obtain ⟨hempty, hpfx⟩ := skipB_false_facts (trimL l) hskipf
      have htne : trimL l ≠ [] := by
        intro h0
        rw [h0] at hempty
        exact Bool.noConfusion hempty
      have htgood : pfx slashSlash (trimL l) = true ∧
          ∀ c, (trimL l).getLast? = some c → isWs c = false :=
        ⟨hpfx, trimL_last_not_ws l⟩
      simp only [normCore, hskip, if_false] at hs
      by_cases hcomma : endsComma (trimL l) = true
      · rw [if_pos hcomma] at hs
        rcases hbuf with rfl | ⟨hbp, hbl⟩
        · simp only [List.isEmpty_nil, if_true] at hs
          exact ih (trimL l) (Or.inr htgood) s hs
        · have hbne : buf ≠ [] := ne_nil_of_pfx_ss buf hbp
          rw [listIsEmpty_false buf hbne, if_neg (by simp)] at hs
          refine ih (buf ++ stripMarker (trimL l)) (Or.inr ⟨pfx_append _ _ _ hbp, ?_⟩) s hs
          exact lastNotWs_append buf _ hbl
            (stripMarker_last_not_ws _ (trimL_last_not_ws l))
      · rw [if_neg hcomma] at hs
        rcases hbuf with rfl | ⟨hbp, hbl⟩
        · simp only [List.isEmpty_nil, if_true] at hs
          rcases List.mem_cons.mp hs with hseq | hs2
          · subst hseq
            exact ⟨htne, hpfx, trimL_idem l⟩
          · exact ih [] (Or.inl rfl) s hs2
        · have hbne : buf ≠ [] := ne_nil_of_pfx_ss buf hbp
          rw [listIsEmpty_false buf hbne, if_neg (by simp)] at hs
          rcases List.mem_cons.mp hs with rfl | hs
          · constructor
            · intro h0
              exact hbne (List.append_eq_nil.mp h0).1
            constructor
            · exact pfx_append _ _ _ hbp
            · refine trimL_eq_self _ ?_ ?_
              · intro c hc
                rw [List.head?_append, head?_of_pfx_ss buf hbp] at hc
                have : c = '/' := by
                  have h2 : some '/' = some c := hc
                  exact (Option.some.injEq _ _ ▸ h2).symm
                rw [this]
                rfl
              · exact lastNotWs_append buf _ hbl
                  (stripMarker_last_not_ws _ (trimL_last_not_ws l))
          · exact ih [] (Or.inl rfl) s hs

/-- C10: every logical statement emitted by the normalizer is non-empty,
carries no leading or trailing whitespace, and begins with the
two-character statement marker `//` (a joined continuation keeps the
marker of its first physical line), so the parser's anchored step and DD
patterns are applicable to every normalizer output. -/
theorem normalizer_output_shape (content : Chars) (s : Chars)
    (hs : s ∈ normalizeJcl content) :
    s ≠ [] ∧ pfx slashSlash s = true ∧ trimL s = s :=
  normCore_good (splitLines content) [] (Or.inl rfl) s hs

/-- C10 witness: the single statement normalized from a concrete two-line
continuation is non-empty, marker-prefixed and fully trimmed. -/
theorem normalizer_output_shape_witness :
    (("//A DD DSN=X,Y").data ≠ [] ∧
      pfx slashSlash (("//A DD DSN=X,Y").data) = true ∧
      trimL (("//A DD DSN=X,Y").data) = ("//A DD DSN=X,Y").data) :=
  normalizer_output_shape (("//A DD DSN=X,\n//  Y").data)
    (("//A DD DSN=X,Y").data) (by decide)

/-! ### C7: the continuation rule of the normalizer -/

theorem normCore_cont (t : Chars) (rest : List Chars)
    (ht : skipB (trimL t) = false) (htc : endsComma (trimL t) = false) :
    ∀ cs buf, buf ≠ [] →
      (∀ c ∈ cs, skipB (trimL c) = false ∧ endsComma (trimL c) = true) →
      normCore (cs ++ t :: rest) buf =
        (cs.foldl (fun b c => b ++ stripMarker (trimL c)) buf ++ stripMarker (trimL t))
          :: normCore rest [] := by
  intro cs
  induction cs with
  | nil =>
    intro buf hb _
    simp [normCore, ht, htc, listIsEmpty_false buf hb]
  | cons c cs' ih =>
    intro buf hb hall
    have hc := hall c (List.mem_cons_self c cs')
    have hb2 : buf ++ stripMarker (trimL c) ≠ [] := by
      intro h0
      exact hb (List.append_eq_nil.mp h0).1
    simp only [List.cons_append, normCore, hc.1, hc.2, if_false, if_true,
      listIsEmpty_false buf hb, Bool.false_eq_true, List.foldl_cons]
    exact ih (buf ++ stripMarker (trimL c)) hb2
      (fun x hx => hall x (List.mem_cons_of_mem c hx))

theorem normCore_all_pending (ls : List Chars) :
    ∀ buf, (∀ l ∈ ls, skipB (trimL l) = true ∨ endsComma (trimL l) = true) →
      normCore ls buf = [] := by
  induction ls with
  | nil => intro buf _; rfl
  | cons l rest ih =>
    intro buf h
    by_cases hskip : skipB (trimL l) = true
    · simp only [normCore, hskip, if_true]
      exact ih buf (fun x hx => h x (List.mem_cons_of_mem l hx))
    · have hcomma : endsComma (trimL l) = true := by
        rcases h l (List.mem_cons_self l rest) with h1 | h1
        · exact absurd h1 hskip
        · exact h1
      simp only [normCore, hcomma, if_true]
      rw [if_neg hskip]
      by_cases hbe : buf.isEmpty = true
      · rw [if_pos hbe]
        exact ih _ (fun x hx => h x (List.mem_cons_of_mem l hx))
      · rw [if_neg hbe]
        exact ih _ (fun x hx => h x (List.mem_cons_of_mem l hx))

/-- C7: the Statement Normalizer joins continuations as follows — after
discarding empty, comment and non-statement lines, a trimmed line ending
with a comma opens or extends a buffer (its leading `//` marker stripped
only for lines after the first); the first subsequent line not ending
with a comma is marker-stripped, appended, and the buffer is emitted as
one logical statement; a non-comma-terminated line with no pending buffer
is emitted unchanged; and a buffer still pending when the input ends is
silently dropped, contributing no statement and no error. -/
theorem normalizer_continuation :
    (∀ o cs t rest, skipB (trimL o) = false → endsComma (trimL o) = true →
        (∀ c ∈ cs, skipB (trimL c) = false ∧ endsComma (trimL c) = true) →
        skipB (trimL t) = false → endsComma (trimL t) = false →
        normCore (o :: (cs ++ t :: rest)) [] =
          (cs.foldl (fun b c => b ++ stripMarker (trimL c)) (trimL o)
            ++ stripMarker (trimL t)) :: normCore rest [])
    ∧ (∀ l rest, skipB (trimL l) = false → endsComma (trimL l) = false →
        normCore (l :: rest) [] = trimL l :: normCore rest [])
    ∧ (∀ l ls buf, (trimL l).isEmpty = true ∨ pfx slashSlashStar (trimL l) = true ∨
        pfx slashSlash (trimL l) = false →
        normCore (l :: ls) buf = normCore ls buf)
    ∧ (∀ ls buf, (∀ l ∈ ls, skipB (trimL l) = true ∨ endsComma (trimL l) = true) →
        normCore ls buf = []) := by
  refine ⟨?_, ?_, ?_, normCore_all_pending⟩
  · intro o cs t rest ho hoc hcs ht htc
    have hone : trimL o ≠ [] := by
      intro h0
      have := (skipB_false_facts (trimL o) ho).1
      rw [h0] at this
      exact Bool.noConfusion this
    simp only [normCore, ho, hoc, if_true, if_false, Bool.false_eq_true,
      List.isEmpty_nil]
    exact normCore_cont t rest ht htc cs (trimL o) hone hcs
  · intro l rest hl hlc
    simp [normCore, hl, hlc]
  · intro l ls buf h
    have hskip : skipB (trimL l) = true := by
      rw [skipB]
      rcases h with h | h | h
      · rw [h]
        rfl
      · rw [h]
        simp
      · rw [h]
        simp
    simp [normCore, hskip]

/-- C7 witness: a concrete three-line continuation (opener, one
continuation line, terminal line) joins into the single logical statement
`//A DD DSN=X,Y,Z`, with the markers of the later lines stripped. -/
theorem normalizer_continuation_witness :
    normCore [("//A DD DSN=X,").data, ("//  Y,").data, ("// Z").data] [] =
      [("//A DD DSN=X,Y,Z").data] := by
  have h := normalizer_continuation.1 (("//A DD DSN=X,").data) [("//  Y,").data]
    (("// Z").data) [] (by decide) (by decide) (by decide) (by decide) (by decide)
  simpa using h

/-! ### C8: keyword case-insensitivity and case normalization -/

theorem takeWhile_append_stop (p : Char → Bool) (a : Chars) (b : Char) (r : Chars)
    (ha : ∀ c ∈ a, p c = true) (hb : p b = false) :
    (a ++ b :: r).takeWhile p = a := by
  induction a with
  | nil => simp [List.takeWhile_cons, hb]
  | cons x xs ih =>
    have hx := ha x (List.mem_cons_self x xs)
    simp [List.takeWhile_cons, hx,
      ih (fun c hc => ha c (List.mem_cons_of_mem x hc))]

theorem dropWhile_append_stop (p : Char → Bool) (a : Chars) (b : Char) (r : Chars)
    (ha : ∀ c ∈ a, p c = true) (hb : p b = false) :
    (a ++ b :: r).dropWhile p = b :: r := by
  induction a with
  | nil => simp [List.dropWhile_cons, hb]
  | cons x xs ih =>
    have hx := ha x (List.mem_cons_self x xs)
    simp [List.dropWhile_cons, hx,
      ih (fun c hc => ha c (List.mem_cons_of_mem x hc))]

theorem takeNS_token (tok : Chars) (rest : Chars)
    (htok : ∀ c ∈ tok, isWs c = false) :
    takeNS (tok ++ ' ' :: rest) = (tok, ' ' :: rest) := by
  rw [takeNS,
    takeWhile_append_stop _ tok ' ' rest (fun c hc => by simp [htok c hc]) (by decide),
    dropWhile_append_stop _ tok ' ' rest (fun c hc => by simp [htok c hc]) (by decide)]

theorem takeWhile_all (p : Char → Bool) (l : Chars) (h : ∀ c ∈ l, p c = true) :
    l.takeWhile p = l := by
  induction l with
  | nil => rfl
  | cons x xs ih =>
    simp [List.takeWhile_cons, h x (List.mem_cons_self x xs),
      ih (fun c hc => h c (List.mem_cons_of_mem x hc))]

theorem eatCI_of_toLower (kw : Chars) :
    ∀ xs rest, xs.map Char.toLower = kw.map Char.toLower →
      eatCI kw (xs ++ rest) = some rest := by
  induction kw with
  | nil =>
    intro xs rest h
    have : xs = [] := by simpa using h
    subst this
    rfl
  | cons k ks ih =>
    intro xs rest h
    cases xs with
    | nil => simp at h
    | cons x xs' =>
      simp only [List.map_cons, List.cons.injEq] at h
      simp only [List.cons_append, eatCI]
      rw [if_pos (by simp [lowEq, h.1])]
      exact ih xs' rest h.2

theorem eatCI_self (kw : Chars) : ∀ rest, eatCI kw (kw ++ rest) = some rest := by
  intro rest
  exact eatCI_of_toLower kw kw rest rfl

theorem isWs_toLower_self (c : Char) (h : isWs c = true) : c.toLower = c := by
  rw [isWs] at h
  simp only [Bool.or_eq_true, beq_iff_eq] at h
  rcases h with ((h | h) | h) | h <;> rw [h] <;> decide

theorem notWs_of_toLower_eq (c d : Char) (h : c.toLower = d) (hd : isWs d = false) :
    isWs c = false := by
  cases hv : isWs c with
  | false => rfl
  | true =>
    have h2 : c = d := (isWs_toLower_self c hv).symm.trans h
    rw [h2] at hv
    rw [hv] at hd
    exact Bool.noConfusion hd

theorem filter_of_all_true (p : Char → Bool) (l : Chars) (h : ∀ c ∈ l, p c = true) :
    l.filter p = l := by
  induction l with
  | nil => rfl
  | cons x xs ih =>
    simp [List.filter_cons, h x (List.mem_cons_self x xs),
      ih (fun c hc => h c (List.mem_cons_of_mem x hc))]

/-- C8: the Statement Parser matches the step and data-definition keywords
case-insensitively (any spelling of `EXEC`, `PGM=` and `DD` that agrees
letterwise up to case is accepted), registers the program name and the DD
name uppercase-normalized, registers the step identifier exactly as
captured from the script (not case-normalized), and stores the extracted
dataset name exactly as extracted, the extraction itself performing no
case normalization. -/
theorem parser_case_handling (cl : Char → Bool) (useDisp : Bool) :
    (∀ tok ew pw pgm, tok ≠ [] → (∀ c ∈ tok, isWs c = false) →
        ew.map Char.toLower = kwEXEC.map Char.toLower →
        pw.map Char.toLower = kwPGMEQ.map Char.toLower →
        pgm ≠ [] → (∀ c ∈ pgm, pgmClass c = true) →
        stepCapture ('/' :: '/' :: (tok ++ ' ' :: (ew ++ ' ' :: (pw ++ pgm))))
          = some (tok, pgm))
    ∧ (∀ tok dw rest, tok ≠ [] → (∀ c ∈ tok, isWs c = false) →
        dw.map Char.toLower = kwDD.map Char.toLower →
        ddCapture ('/' :: '/' :: (tok ++ ' ' :: (dw ++ ' ' :: rest))) = some tok)
    ∧ (∀ s line tok pgm, stepCapture line = some (tok, pgm) →
        parseLine cl useDisp s line =
          ⟨upsert s.steps ⟨tok, pgm.map Char.toUpper, []⟩, some tok⟩)
    ∧ (∀ s line cur ddTok dsnVal, stepCapture line = none → s.current = some cur →
        ddCapture line = some ddTok → extractParam cl kwDSN line = some dsnVal →
        dsnVal.isEmpty = false →
        parseLine cl useDisp s line =
          ⟨addDD s.steps cur
            ⟨ddTok.map Char.toUpper, dsnVal,
              (if useDisp then extractDisp line else none),
              extractParam cl kwRECFM line, extractParam cl kwLRECL line,
              extractParam cl kwBLKSIZE line⟩, some cur⟩)
    ∧ (∀ v, v ≠ [] → (∀ c ∈ v, cl c = true) →
        (∀ c ∈ v, (c == '(' || c == ')') = false) →
        extractParam cl kwDSN (kwDSN ++ '=' :: v) = some v) := by
  refine ⟨?_, ?_, ?_, ?_, ?_⟩
  · intro tok ew pw pgm htne htok he hp hpgne hpg
    rcases ew with _ | ⟨e1, ew'⟩
    · simp [kwEXEC] at he
    rcases pw with _ | ⟨p1, pw'⟩
    · simp [kwPGMEQ] at hp
    have he1 : e1.toLower = 'e' := by
      simp only [kwEXEC, List.map_cons, List.cons.injEq] at he
      exact he.1.trans (by decide)
    have hp1 : p1.toLower = 'p' := by
      simp only [kwPGMEQ, List.map_cons, List.cons.injEq] at hp
      exact hp.1.trans (by decide)
    have hws1 : isWs e1 = false := notWs_of_toLower_eq e1 'e' he1 (by decide)
    have hwsp : isWs p1 = false := notWs_of_toLower_eq p1 'p' hp1 (by decide)
    simp only [stepCapture, takeNS_token tok _ htok, listIsEmpty_false tok htne,
      Bool.false_eq_true, if_false, eatWs1, isWs, if_pos (by decide : (' ' == ' ' ||
        ' ' == '\t' || ' ' == '\r' || ' ' == '\n') = true)]
    rw [show ((e1 :: ew') ++ ' ' :: (p1 :: pw' ++ pgm)).dropWhile isWs
        = (e1 :: ew') ++ ' ' :: (p1 :: pw' ++ pgm) by
      simp [List.cons_append, List.dropWhile_cons, hws1]]
    rw [eatCI_of_toLower kwEXEC (e1 :: ew') _ he]
    simp only [eatWs1, isWs, if_pos (by decide : (' ' == ' ' || ' ' == '\t' ||
      ' ' == '\r' || ' ' == '\n') = true)]
    rw [show ((p1 :: pw') ++ pgm).dropWhile isWs = (p1 :: pw') ++ pgm by
      simp [List.cons_append, List.dropWhile_cons, hwsp]]
    rw [eatCI_of_toLower kwPGMEQ (p1 :: pw') pgm hp]
    simp [takeClass, takeWhile_all pgmClass pgm hpg, listIsEmpty_false pgm hpgne]
  · intro tok dw rest htne htok hd
    rcases dw with _ | ⟨d1, dw'⟩
    · simp [kwDD] at hd
    have hd1 : d1.toLower = 'd' := by
      simp only [kwDD, List.map_cons, List.cons.injEq] at hd
      exact hd.1.trans (by decide)
    have hwsd : isWs d1 = false := notWs_of_toLower_eq d1 'd' hd1 (by decide)
    simp only [ddCapture, takeNS_token tok _ htok, listIsEmpty_false tok htne,
      Bool.false_eq_true, if_false, eatWs1, isWs, if_pos (by decide : (' ' == ' ' ||
        ' ' == '\t' || ' ' == '\r' || ' ' == '\n') = true)]
    rw [show ((d1 :: dw') ++ ' ' :: rest).dropWhile isWs = (d1 :: dw') ++ ' ' :: rest by
      simp [List.cons_append, List.dropWhile_cons, hwsd]]
    rw [eatCI_of_toLower kwDD (d1 :: dw') _ hd]
    simp [eatWs1, isWs]
  · intro s line tok pgm h
    simp [parseLine, h]
  · intro s line cur ddTok dsnVal hsc hcur hdd hdsn hne
    simp only [parseLine, hsc, hcur, hdd, hdsn, hne, Bool.false_eq_true, if_false]
  · intro v hv hcl hnp
    have htry : tryKey ('D' :: 'S' :: 'N' :: '=' :: ([] : Chars)) cl
        ('D' :: 'S' :: 'N' :: '=' :: v) = some v := by
      rw [show ('D' :: 'S' :: 'N' :: '=' :: v : Chars)
          = ('D' :: 'S' :: 'N' :: '=' :: ([] : Chars)) ++ v by simp]
      rw [tryKey, eatCI_self]
      simp [takeClass, takeWhile_all cl v hcl, listIsEmpty_false v hv]
    rw [extractParam,
      show (kwDSN ++ ['=']) = ('D' :: 'S' :: 'N' :: '=' :: ([] : Chars)) from rfl,
      show (kwDSN ++ '=' :: v) = ('D' :: 'S' :: 'N' :: '=' :: v : Chars) from rfl]
    simp only [searchKey, htry]
    have hmap : (some v).map (fun w => List.filter (fun c => !(c == '(' || c == ')')) w)
        = some (v.filter (fun c => !(c == '(' || c == ')'))) := rfl
    rw [hmap, filter_of_all_true _ v (fun c hc => by simp [hnp c hc])]

/-- C8 witness: mixed-case keywords `Exec`, `pGm=` and `dD` are accepted;
the captured step token `StepA` and dataset value `My.Data` keep their
case, while the extraction delivers the program and DD tokens for
uppercase normalization. -/
theorem parser_case_handling_witness :
    stepCapture ('/' :: '/' :: (("StepA").data ++ ' ' :: (("Exec").data ++ ' '
        :: (("pGm=").data ++ ("srt1").data)))) = some (("StepA").data, ("srt1").data)
    ∧ ddCapture ('/' :: '/' :: (("dd1").data ++ ' ' :: (("dD").data ++ ' '
        :: ("DSN=My.Data").data))) = some (("dd1").data)
    ∧ extractParam classE2E kwDSN (kwDSN ++ '=' :: ("My.Data").data)
        = some (("My.Data").data) :=
  ⟨(parser_case_handling classE2E true).1 (("StepA").data) (("Exec").data)
      (("pGm=").data) (("srt1").data) (by decide) (by decide) (by decide) (by decide)
      (by decide) (by decide),
   (parser_case_handling classE2E true).2.1 (("dd1").data) (("dD").data)
      (("DSN=My.Data").data) (by decide) (by decide) (by decide),
   (parser_case_handling classE2E true).2.2.2.2 (("My.Data").data)
      (by decide) (by decide) (by decide)⟩

end JclTool
